import Mathlib

/-!
Verification development for the stock-price dashboard in `kabuka2.py`.

The program downloads an OHLC price table for a fixed mapping of technology
companies over a sliding day window, derives a Close matrix (companies as
rows, dates as columns), and reshapes either into a long-form table for a
multi-line chart (melt) or into a single-instrument OHLC table for a
candlestick chart.

Shallow embedding conventions:
- calendar dates are integers (day numbers); prices are `Option Int`, with
  `none` standing for a missing value (NaN on a non-trading day);
- a pandas frame with a (field, symbol) column MultiIndex is `OHLCTable`:
  a date index, a symbol list, and a cell function;
- the raw provider response (`yf.download`) is `RawHist`, which also records
  whether its row index is a DatetimeIndex and whether its columns carry the
  per-symbol grouping level, since the code branches on both;
- every error path that the program reports via `st.error` (directly or via
  a caught exception) is an `Except.error` carrying a `ShapeError`.
-/

namespace Kabuka

/-- The four OHLC price fields. -/
inductive Field where
  | Open
  | High
  | Low
  | Close
deriving DecidableEq

/-- The error taxonomy of the pipeline: transport or shape failure caught by
the exception handler, an empty provider response, an empty company
selection, and a missing-label lookup (a pandas KeyError). -/
inductive ShapeError where
  | fetchFailed
  | emptyResult
  | noSelection
  | keyError
deriving DecidableEq

/-- An OHLC table: date index, per-instrument column grouping, and a cell
function giving the value at (field, symbol, date). -/
structure OHLCTable where
  dates : List Int
  symbols : List String
  cell : Field → String → Int → Option Int

/-- The column shape of a raw provider response: either the usual
(field, symbol) MultiIndex, or the flat single-symbol shape that lacks the
per-instrument grouping level. -/
inductive RawCols where
  | multi (cell : Field → String → Int → Option Int)
  | flat (cell : Field → Int → Option Int)

/-- A raw `yf.download` result: whether its row index is a DatetimeIndex,
its date index, and its columns. -/
structure RawHist where
  indexIsDatetime : Bool
  dates : List Int
  cols : RawCols

/-- A Close matrix: dates as columns and one row per instrument, each row a
label together with the list of close values aligned with `dates`. The label
type is a parameter because the relabeling step maps ticker symbols through
a dictionary, which yields `Option String` labels (`none` models the NaN
label pandas produces for an unmapped symbol). -/
structure CloseMatrix (α : Type) where
  dates : List Int
  rows : List (α × List (Option Int))
deriving DecidableEq

/-- The inverted instrument mapping `ticker_to_name = \x7bv: k for k, v in
tickers.items()\x7d`. A Python dict keeps the last binding of a duplicated
key, so the swapped list is reversed to make first-match lookup agree with
dict lookup. -/
def ticker_to_name (tickers : List (String × String)) : List (String × String) :=
  (tickers.map (fun p => (p.2, p.1))).reverse

/-- Lines 58-64: project the OHLC table to the Close field, relabel each
column from ticker symbol to display name via the inverted mapping (pandas
`Index.map`, giving a missing label when a symbol is unmapped), and
transpose, so instruments become rows. -/
def mk_df_close (hist : OHLCTable) (tickers : List (String × String)) :
    CloseMatrix (Option String) :=
  { dates := hist.dates,
    rows := hist.symbols.map (fun s =>
      (((ticker_to_name tickers).find? (fun p => decide (p.1 = s))).map Prod.snd,
       hist.dates.map (fun d => hist.cell Field.Close s d))) }

/-- Lines 36-37: the requested window, `start_date = end_date -
timedelta(days=days-1)` with `end_date = now`. -/
def date_window (now : Int) (days : Nat) : Int × Int :=
  (now - ((days : Int) - 1), now)

/-- Lines 32-71, `get_data`: compute the window, download all tickers in one
batch, report an empty response as an error, re-wrap a flat single-ticker
response only when the row index is not a DatetimeIndex, then build the
Close matrix. Extracting the Close columns from a still-flat response raises
(a Series has no `.columns`), which the handler catches and reports. -/
def get_data (download : Int × Int → List String → RawHist) (now : Int)
    (days : Nat) (tickers : List (String × String)) :
    Except ShapeError (OHLCTable × CloseMatrix (Option String)) :=
  let tkr_list := tickers.map Prod.snd
  let hist0 := download (date_window now days) tkr_list
  if hist0.dates.isEmpty then Except.error ShapeError.emptyResult
  else
    let hist1 :=
      if tkr_list.length = 1 ∧ hist0.indexIsDatetime = false then
        match hist0.cols with
        | RawCols.flat c =>
          { hist0 with
            cols := RawCols.multi
              (fun f s d => if s = tkr_list.headD "" then c f d else none) }
        | RawCols.multi _ => hist0
      else hist0
    match hist1.cols with
    | RawCols.multi cell =>
      let t : OHLCTable := { dates := hist1.dates, symbols := tkr_list, cell := cell }
      Except.ok (t, mk_df_close t tickers)
    | RawCols.flat _ => Except.error ShapeError.fetchFailed

/-- Lines 75-82: the fixed instrument mapping of the application. -/
def tickersMap : List (String × String) :=
  [("apple", "AAPL"),
   ("meta", "META"),
   ("google", "GOOGL"),
   ("microsoft", "MSFT"),
   ("netflix", "NFLX"),
   ("amazon", "AMZN")]

/-- Select the rows of a Close matrix labeled by `companies`, in that order;
`none` models the KeyError `.loc` raises when a label is absent. -/
def selRows {α : Type} [DecidableEq α] (m : CloseMatrix α) :
    List α → Option (List (α × List (Option Int)))
  | [] => some []
  | c :: cs =>
    match m.rows.find? (fun r => decide (r.1 = c)), selRows m cs with
    | some r, some rest => some (r :: rest)
    | _, _ => none

/-- Lines 116-121: transpose the filtered matrix back to dates-as-rows and
melt it: for each selected row in order, one output triple
(date, label, value) per date, keeping missing values. -/
def melt {α : Type} (dates : List Int) (sel : List (α × List (Option Int))) :
    List (Int × α × Option Int) :=
  sel.flatMap (fun r => (dates.zip r.2).map (fun p => (p.1, r.1, p.2)))

/-- Lines 108-121: the multi-line-chart shaping. An empty selection is the
NoSelection error (line 109); otherwise filter the matrix to the selected
companies with `.loc` and melt. -/
def toLongForm {α : Type} [DecidableEq α] (m : CloseMatrix α)
    (companies : List α) : Except ShapeError (List (Int × α × Option Int)) :=
  if companies.isEmpty then Except.error ShapeError.noSelection
  else
    match selRows m companies with
    | none => Except.error ShapeError.keyError
    | some sel => Except.ok (melt m.dates sel)

/-- Remove duplicates from a list keeping the first occurrence of each
element. -/
def firstDedup {α : Type} [DecidableEq α] : List α → List α
  | [] => []
  | a :: t => a :: firstDedup (t.filter (fun x => decide (x ≠ a)))
termination_by l => l.length
decreasing_by
  simp only [List.length_cons]
  exact Nat.lt_succ_of_le (List.length_filter_le _ _)

/-- The value a pivot of a long-form list places at (label, date): the value
of the first triple carrying that date and label, missing if there is none. -/
def pivotVal {α : Type} [DecidableEq α] (l : List (Int × α × Option Int))
    (c : α) (d : Int) : Option Int :=
  match l.find? (fun x => decide (x.1 = d ∧ x.2.1 = c)) with
  | some x => x.2.2
  | none => none

/-- Re-pivot a long-form list back into a labels-by-dates matrix: row labels
and column dates in order of first appearance, cells looked up by
(label, date). -/
def rePivot {α : Type} [DecidableEq α] (l : List (Int × α × Option Int)) :
    CloseMatrix α :=
  { dates := firstDedup (l.map (fun x => x.1)),
    rows := (firstDedup (l.map (fun x => x.2.1))).map (fun c =>
      (c, (firstDedup (l.map (fun x => x.1))).map (fun d => pivotVal l c d))) }

/-- The entry of a Close matrix at (label, date): the row with that label,
then the value aligned with that date; missing when absent. -/
def CloseMatrix.entry {α : Type} [DecidableEq α] (m : CloseMatrix α)
    (c : α) (d : Int) : Option Int :=
  match m.rows.find? (fun r => decide (r.1 = c)) with
  | some r =>
    match (m.dates.zip r.2).find? (fun p => decide (p.1 = d)) with
    | some p => p.2
    | none => none
  | none => none

/-- Lines 152-157: the candlestick shaping. Select the columns of one ticker
(KeyError if absent), drop the symbol level, keep the four OHLC fields, turn
the date index into a column, and report an empty projection as an error. -/
def ohlc_data (hist : OHLCTable) (tkr : String) :
    Except ShapeError
      (List String × List (Int × Option Int × Option Int × Option Int × Option Int)) :=
  if tkr ∈ hist.symbols then
    let rows := hist.dates.map (fun d =>
      (d, hist.cell Field.Open tkr d, hist.cell Field.High tkr d,
          hist.cell Field.Low tkr d, hist.cell Field.Close tkr d))
    if rows.isEmpty then Except.error ShapeError.emptyResult
    else Except.ok (["Date", "Open", "High", "Low", "Close"], rows)
  else Except.error ShapeError.keyError

/-- A memoization key: the exact arguments of `get_data`. -/
abbrev CacheKey := Nat × List (String × String)

/-- The result type of one fetch. -/
abbrev FetchResult := Except ShapeError (OHLCTable × CloseMatrix (Option String))

/-- Modelled from the spec: the `st.cache_data` decorator on `get_data`
(line 31) memoizes the call on the exact argument key. A call whose key is
cached returns the stored result without touching the provider; otherwise
the body runs once and the result is stored. The third component records
whether this call issued a provider request. -/
def cachedFetch (download : Int × Int → List String → RawHist) (now : Int)
    (cache : List (CacheKey × FetchResult)) (days : Nat)
    (tickers : List (String × String)) :
    FetchResult × List (CacheKey × FetchResult) × Bool :=
  match cache.find? (fun e => decide (e.1 = (days, tickers))) with
  | some e => (e.2, cache, false)
  | none =>
    let r := get_data download now days tickers
    (r, ((days, tickers), r) :: cache, true)

/-- Run a sequence of fetch calls through the memoizing wrapper, starting
from a given cache, and return the keys of the calls that actually issued a
provider request, in order. -/
def fetchTrace (download : Int × Int → List String → RawHist) (now : Int) :
    List (CacheKey × FetchResult) → List CacheKey → List CacheKey
  | _, [] => []
  | cache, k :: ks =>
    let step := cachedFetch download now cache k.1 k.2
    (if step.2.2 then [k] else []) ++ fetchTrace download now step.2.1 ks

/-- The number of provider requests carrying a given key in a trace. -/
def countKey (k : CacheKey) (l : List CacheKey) : Nat :=
  (l.filter (fun x => decide (x = k))).length

/-- The row of a Close matrix carrying a given label, with a placeholder
when the label is absent (only used under a presence hypothesis). -/
def rowOf {α : Type} [DecidableEq α] (m : CloseMatrix α) (c : α) :
    α × List (Option Int) :=
  (m.rows.find? (fun r => decide (r.1 = c))).getD (c, [])

/-! ### General helper lemmas -/

theorem find_unique {α : Type} (p : α → Bool) :
    ∀ (l : List α) (a : α), a ∈ l → p a = true →
      (∀ b ∈ l, p b = true → b = a) → l.find? p = some a := by
  intro l
  induction l with
  | nil => intro a ha _ _; cases ha
  | cons x t ih =>
    intro a ha hp hu
    by_cases hx : p x = true
    · rw [List.find?_cons_of_pos _ hx]
      exact congrArg some (hu x (List.mem_cons_self x t) hx)
    · rw [List.find?_cons_of_neg _ hx]
      rcases List.mem_cons.mp ha with h | h
      · exact absurd (h ▸ hp) hx
      · exact ih a h hp (fun b hb hpb => hu b (List.mem_cons_of_mem x hb) hpb)

theorem zip_self_map {α β : Type} (g : α → β) :
    ∀ l : List α, l.zip (l.map g) = l.map (fun a => (a, g a)) := by
  intro l
  induction l with
  | nil => rfl
  | cons a t ih => simp only [List.map_cons, List.zip_cons_cons, ih]

theorem firstDedup_append_of_subset {β : Type} [DecidableEq β] :
    ∀ (l r : List β), l.Nodup → (∀ x ∈ r, x ∈ l) → firstDedup (l ++ r) = l := by
  intro l
  induction l with
  | nil =>
    intro r _ hr
    have : r = [] :=
      List.eq_nil_iff_forall_not_mem.mpr (fun x hx => List.not_mem_nil x (hr x hx))
    rw [this]
    simp [firstDedup]
  | cons a t ih =>
    intro r hnd hr
    have hat : a ∉ t := (List.nodup_cons.mp hnd).1
    rw [List.cons_append, firstDedup, List.filter_append]
    have ht : t.filter (fun x => decide (x ≠ a)) = t := by
      apply List.filter_eq_self.mpr
      intro x hx
      simp only [decide_eq_true_eq]
      exact fun he => hat (he ▸ hx)
    rw [ht]
    congr 1
    apply ih _ (List.nodup_cons.mp hnd).2
    intro x hx
    have hxr := List.mem_filter.mp hx
    have hxa : x ≠ a := by simpa using hxr.2
    rcases List.mem_cons.mp (hr x hxr.1) with h | h
    · exact absurd h hxa
    · exact h

theorem firstDedup_flatMap_const {α β : Type} [DecidableEq β] (l : List α)
    (dates : List β) (hl : l ≠ []) (hd : dates.Nodup) :
    firstDedup (l.flatMap (fun _ => dates)) = dates := by
  cases l with
  | nil => exact absurd rfl hl
  | cons a t =>
    rw [List.flatMap_cons]
    apply firstDedup_append_of_subset _ _ hd
    intro x hx
    rcases List.mem_flatMap.mp hx with ⟨b, _, hxb⟩
    exact hxb

theorem firstDedup_flatMap_replicate {β : Type} [DecidableEq β] (n : Nat)
    (hn : n ≠ 0) :
    ∀ l : List β, l.Nodup →
      firstDedup (l.flatMap (fun c => List.replicate n c)) = l := by
  intro l
  induction l with
  | nil => intro _; simp [firstDedup]
  | cons a t ih =>
    intro hnd
    have hat : a ∉ t := (List.nodup_cons.mp hnd).1
    obtain ⟨m, rfl⟩ : ∃ m, n = m + 1 :=
      ⟨n - 1, (Nat.succ_pred_eq_of_pos (Nat.pos_of_ne_zero hn)).symm⟩
    rw [List.flatMap_cons, List.replicate_succ, List.cons_append, firstDedup,
      List.filter_append]
    have h1 : (List.replicate m a).filter (fun x => decide (x ≠ a)) = [] := by
      apply List.filter_eq_nil_iff.mpr
      intro x hx
      have hxa := List.eq_of_mem_replicate hx
      simp [hxa]
    have h2 : (t.flatMap (fun c => List.replicate (m + 1) c)).filter
        (fun x => decide (x ≠ a)) = t.flatMap (fun c => List.replicate (m + 1) c) := by
      apply List.filter_eq_self.mpr
      intro x hx
      rcases List.mem_flatMap.mp hx with ⟨c, hc, hxc⟩
      have hxc2 := List.eq_of_mem_replicate hxc
      simp only [decide_eq_true_eq]
      exact fun he => hat ((he ▸ hxc2) ▸ hc)
    rw [h1, h2, List.nil_append]
    exact congrArg _ (ih (List.nodup_cons.mp hnd).2)

theorem rowOf_spec {α : Type} [DecidableEq α] (m : CloseMatrix α) (c : α)
    (h : ∃ r ∈ m.rows, r.1 = c) :
    rowOf m c ∈ m.rows ∧ (rowOf m c).1 = c ∧
      m.rows.find? (fun r => decide (r.1 = c)) = some (rowOf m c) := by
  obtain ⟨r, hr, hrc⟩ := h
  have hsome : (m.rows.find? (fun r => decide (r.1 = c))).isSome :=
    List.find?_isSome.mpr ⟨r, hr, by simp [hrc]⟩
  obtain ⟨r0, hr0⟩ := Option.isSome_iff_exists.mp hsome
  have hmem := List.mem_of_find?_eq_some hr0
  have hlab : r0.1 = c := by simpa using List.find?_some hr0
  simp only [rowOf, hr0, Option.getD_some]
  exact ⟨hmem, hlab, trivial⟩

theorem selRows_eq_map_rowOf {α : Type} [DecidableEq α] (m : CloseMatrix α) :
    ∀ companies : List α, (∀ c ∈ companies, ∃ r ∈ m.rows, r.1 = c) →
      selRows m companies = some (companies.map (rowOf m)) := by
  intro companies
  induction companies with
  | nil => intro _; rfl
  | cons c cs ih =>
    intro h
    have hc := (rowOf_spec m c (h c (List.mem_cons_self c cs))).2.2
    have hcs := ih (fun x hx => h x (List.mem_cons_of_mem c hx))
    simp only [selRows, hc, hcs, List.map_cons]

theorem entry_rowOf {α : Type} [DecidableEq α] (m : CloseMatrix α) (c : α)
    (hpres : ∃ r ∈ m.rows, r.1 = c) (hd : m.dates.Nodup)
    (hlen : (rowOf m c).2.length = m.dates.length)
    (i : Nat) (hi : i < m.dates.length) :
    m.entry c (m.dates.get ⟨i, hi⟩) =
      (rowOf m c).2.get ⟨i, by rw [hlen]; exact hi⟩ := by
  have hfind := (rowOf_spec m c hpres).2.2
  have hv : i < (rowOf m c).2.length := by rw [hlen]; exact hi
  have hzip : (m.dates.zip (rowOf m c).2).find?
      (fun p => decide (p.1 = m.dates.get ⟨i, hi⟩)) =
      some (m.dates.get ⟨i, hi⟩, (rowOf m c).2.get ⟨i, hv⟩) := by
    apply find_unique
    · apply List.mem_iff_getElem.mpr
      refine ⟨i, by rw [List.length_zip]; exact lt_min hi hv, ?_⟩
      rw [List.getElem_zip]
      simp [List.get_eq_getElem]
    · simp
    · intro b hb hpb
      rcases List.mem_iff_getElem.mp hb with ⟨j, hj, hbj⟩
      have hjd : j < m.dates.length := by
        rw [List.length_zip] at hj
        exact lt_of_lt_of_le hj (min_le_left _ _)
      have hjv : j < (rowOf m c).2.length := by
        rw [List.length_zip] at hj
        exact lt_of_lt_of_le hj (min_le_right _ _)
      have hbeq : b = (m.dates[j], (rowOf m c).2[j]) := by
        rw [← hbj, List.getElem_zip]
      have hdj : m.dates[j] = m.dates[i] := by
        have := of_decide_eq_true hpb
        rw [hbeq] at this
        simpa [List.get_eq_getElem] using this
      have hij : j = i := hd.getElem_inj_iff.mp hdj
      subst hij
      rw [hbeq]
      simp [List.get_eq_getElem]
  simp only [CloseMatrix.entry, hfind, hzip]

theorem mem_melt {α : Type} {dates : List Int}
    {sel : List (α × List (Option Int))} {x : Int × α × Option Int} :
    x ∈ melt dates sel ↔
      ∃ r ∈ sel, ∃ i : Nat, ∃ hi : i < dates.length, ∃ hv : i < r.2.length,
        x = (dates.get ⟨i, hi⟩, r.1, r.2.get ⟨i, hv⟩) := by
  unfold melt
  rw [List.mem_flatMap]
  constructor
  · rintro ⟨r, hr, hx⟩
    rcases List.mem_map.mp hx with ⟨p, hp, rfl⟩
    rcases List.mem_iff_getElem.mp hp with ⟨i, hilt, hpi⟩
    have hi : i < dates.length := by
      rw [List.length_zip] at hilt
      exact lt_of_lt_of_le hilt (min_le_left _ _)
    have hv : i < r.2.length := by
      rw [List.length_zip] at hilt
      exact lt_of_lt_of_le hilt (min_le_right _ _)
    refine ⟨r, hr, i, hi, hv, ?_⟩
    have hpz : p = (dates[i], r.2[i]) := by rw [← hpi, List.getElem_zip]
    rw [hpz]
    simp [List.get_eq_getElem]
  · rintro ⟨r, hr, i, hi, hv, rfl⟩
    refine ⟨r, hr, ?_⟩
    have hmem : (dates.get ⟨i, hi⟩, r.2.get ⟨i, hv⟩) ∈ dates.zip r.2 := by
      apply List.mem_iff_getElem.mpr
      refine ⟨i, by rw [List.length_zip]; exact lt_min hi hv, ?_⟩
      rw [List.getElem_zip]
      simp [List.get_eq_getElem]
    exact List.mem_map_of_mem _ hmem

theorem melt_length {α : Type} (dates : List Int) :
    ∀ sel : List (α × List (Option Int)),
      (∀ r ∈ sel, r.2.length = dates.length) →
      (melt dates sel).length = sel.length * dates.length := by
  intro sel
  induction sel with
  | nil => intro _; simp [melt]
  | cons r rest ih =>
    intro h
    unfold melt at ih ⊢
    rw [List.flatMap_cons, List.length_append, List.length_map, List.length_zip,
      h r (List.mem_cons_self r rest), min_self,
      ih (fun q hq => h q (List.mem_cons_of_mem _ hq))]
    simp [List.length_cons]
    ring

/-! ### Claim theorems -/

/-- Claim C8: applying the line-chart shaping with an empty selection set
fails with the NoSelection error and produces no long-form output. -/
theorem toLongForm_empty_selection {α : Type} [DecidableEq α]
    (m : CloseMatrix α) :
    toLongForm m ([] : List α) = Except.error ShapeError.noSelection := rfl

/-- Claim C4: for every day count of at least one, the fetch requests a
window ending now and spanning exactly that many calendar days inclusive of
today; a day count of one requests only the current day. -/
theorem date_window_spec (now : Int) (days : Nat) (h : 1 ≤ days) :
    (date_window now days).2 = now ∧
    (date_window now days).2 - (date_window now days).1 + 1 = (days : Int) ∧
    (days = 1 → date_window now days = (now, now)) := by
  refine ⟨rfl, ?_, ?_⟩
  · simp only [date_window]
    omega
  · intro h1
    subst h1
    simp [date_window]

/-- Witness for the window theorem at the default thirty-day setting. -/
theorem date_window_spec_witness :
    (date_window 737000 30).2 = 737000 ∧
    (date_window 737000 30).2 - (date_window 737000 30).1 + 1 = (30 : Int) ∧
    ((30 : Nat) = 1 → date_window 737000 30 = (737000, 737000)) :=
  date_window_spec 737000 30 (by decide)

/-- A single-instrument provider response lacking the per-symbol column
level while keeping the usual DatetimeIndex row index. -/
def flatRaw : RawHist :=
  { indexIsDatetime := true, dates := [7],
    cols := RawCols.flat (fun _ _ => some 1) }

/-- Claim C2 (code-bug evidence): a single-instrument provider response
that lacks the per-instrument column-grouping level but has the normal
DatetimeIndex row index is not re-wrapped, because the guard on line 48
only fires when the row index is not a DatetimeIndex; the subsequent Close
extraction then fails, so the fetch reports an error instead of returning
the re-wrapped table with the instrument's values. -/
theorem get_data_single_flat_not_rewrapped :
    get_data (fun _ _ => flatRaw) 10 1 [("apple", "AAPL")] =
      Except.error ShapeError.fetchFailed := rfl

/-- Claim C7: for any OHLC table and any symbol present in it, the
candlestick shaping yields exactly the columns Date, Open, High, Low and
Close, one row per date of the source table, each row carrying that
instrument's four field values at its date; and when the projection has
zero rows it fails with EmptyResult instead of returning an empty
sequence. -/
theorem ohlc_data_shape (hist : OHLCTable) (tkr : String)
    (h : tkr ∈ hist.symbols) :
    (∀ cols rows, ohlc_data hist tkr = Except.ok (cols, rows) →
      cols = ["Date", "Open", "High", "Low", "Close"] ∧
      rows.map (fun r => r.1) = hist.dates ∧
      ∀ r ∈ rows,
        r = (r.1, hist.cell Field.Open tkr r.1, hist.cell Field.High tkr r.1,
             hist.cell Field.Low tkr r.1, hist.cell Field.Close tkr r.1)) ∧
    (hist.dates = [] →
      ohlc_data hist tkr = Except.error ShapeError.emptyResult) := by
  constructor
  · intro cols rows hok
    unfold ohlc_data at hok
    rw [if_pos h] at hok
    by_cases hemp : (hist.dates.map (fun d =>
        (d, hist.cell Field.Open tkr d, hist.cell Field.High tkr d,
         hist.cell Field.Low tkr d, hist.cell Field.Close tkr d))).isEmpty = true
    · rw [if_pos hemp] at hok
      cases hok
    · rw [if_neg hemp] at hok
      have hcols : cols = ["Date", "Open", "High", "Low", "Close"] := by
        cases hok
        rfl
      have hrows : rows = hist.dates.map (fun d =>
          (d, hist.cell Field.Open tkr d, hist.cell Field.High tkr d,
           hist.cell Field.Low tkr d, hist.cell Field.Close tkr d)) := by
        cases hok
        rfl
      refine ⟨hcols, ?_, ?_⟩
      · rw [hrows]
        have hgen : ∀ l : List Int, (l.map (fun d =>
            (d, hist.cell Field.Open tkr d, hist.cell Field.High tkr d,
             hist.cell Field.Low tkr d, hist.cell Field.Close tkr d))).map
            (fun r => r.1) = l := by
          intro l
          induction l with
          | nil => rfl
          | cons a t ih => simp only [List.map_cons, ih]
        exact hgen hist.dates
      · intro r hr
        rw [hrows] at hr
        rcases List.mem_map.mp hr with ⟨d, _, rfl⟩
        rfl
  · intro hemp
    unfold ohlc_data
    rw [if_pos h]
    rw [if_pos (by rw [hemp]; rfl)]

/-- Fixture for the candlestick-shaping witness. -/
def exHist7 : OHLCTable :=
  { dates := [1, 2], symbols := ["AAPL", "META"],
    cell := fun _ s d => if s = "AAPL" then some (d + 1) else some (2 * d) }

/-- Fixture rows: the candlestick projection of the fixture table. -/
def exRows7 : List (Int × Option Int × Option Int × Option Int × Option Int) :=
  [(1, some 2, some 2, some 2, some 2), (2, some 3, some 3, some 3, some 3)]

/-- Witness for the candlestick-shaping theorem at a concrete table. -/
theorem ohlc_data_shape_witness :
    exRows7.map (fun r => r.1) = exHist7.dates :=
  (((ohlc_data_shape exHist7 "AAPL" (by decide)).1
    ["Date", "Open", "High", "Low", "Close"] exRows7 rfl).2).1

/-- Claim C10: the fixed instrument mapping has six entries whose display
names and ticker symbols are each pairwise distinct; name-to-symbol and
symbol-to-name lookup both succeed for every entry, inverting the mapping
loses no entry, and the Close-matrix column relabeling is defined for every
column whose symbol is drawn from the mapping. -/
theorem tickersMap_invariants :
    (tickersMap.length = 6 ∧
      (tickersMap.map Prod.fst).Nodup ∧
      (tickersMap.map Prod.snd).Nodup ∧
      (ticker_to_name tickersMap).length = tickersMap.length ∧
      (∀ p ∈ tickersMap,
        tickersMap.find? (fun q => decide (q.1 = p.1)) = some p) ∧
      (∀ p ∈ tickersMap,
        (ticker_to_name tickersMap).find? (fun q => decide (q.1 = p.2)) =
          some (p.2, p.1))) ∧
    (∀ hist : OHLCTable, (∀ s ∈ hist.symbols, s ∈ tickersMap.map Prod.snd) →
      ((mk_df_close hist tickersMap).rows.map Prod.fst).all
        Option.isSome = true) := by
  constructor
  · decide
  · intro hist hsub
    apply List.all_eq_true.mpr
    intro lab hlab
    simp only [mk_df_close, List.map_map, List.mem_map, Function.comp] at hlab
    rcases hlab with ⟨s, hs, hrfl⟩
    rcases List.mem_map.mp (hsub s hs) with ⟨p, hp, hps⟩
    have hmem : (p.2, p.1) ∈ ticker_to_name tickersMap := by
      unfold ticker_to_name
      rw [List.mem_reverse]
      exact List.mem_map_of_mem _ hp
    have hsome : ((ticker_to_name tickersMap).find?
        (fun q => decide (q.1 = s))).isSome :=
      List.find?_isSome.mpr ⟨(p.2, p.1), hmem, by simp [hps]⟩
    rcases Option.isSome_iff_exists.mp hsome with ⟨v, hv⟩
    rw [← hrfl]
    simp [hv]

/-- Fixture table for the mapping-invariants witness. -/
def exHist10 : OHLCTable :=
  { dates := [5], symbols := ["AAPL", "GOOGL"], cell := fun _ _ _ => some 1 }

/-- Witness for the mapping-invariants theorem: relabeling a concrete table
drawn from the mapping yields only defined labels. -/
theorem tickersMap_invariants_witness :
    ((mk_df_close exHist10 tickersMap).rows.map Prod.fst).all
      Option.isSome = true :=
  tickersMap_invariants.2 exHist10 (by decide)

theorem get_data_ok_dates (download : Int × Int → List String → RawHist)
    (now : Int) (days : Nat) (tickers : List (String × String))
    (t : OHLCTable) (m : CloseMatrix (Option String))
    (hok : get_data download now days tickers = Except.ok (t, m)) :
    t.dates = (download (date_window now days) (tickers.map Prod.snd)).dates := by
  simp only [get_data] at hok
  by_cases hemp : (download (date_window now days)
      (tickers.map Prod.snd)).dates.isEmpty = true
  · rw [if_pos hemp] at hok
    cases hok
  · rw [if_neg hemp] at hok
    by_cases hcond : (tickers.map Prod.snd).length = 1 ∧
        (download (date_window now days)
          (tickers.map Prod.snd)).indexIsDatetime = false
    · rw [if_pos hcond] at hok
      cases hraw : (download (date_window now days)
          (tickers.map Prod.snd)).cols with
      | multi c =>
        simp only [hraw] at hok
        cases hok
        rfl
      | flat c =>
        simp only [hraw] at hok
        cases hok
        rfl
    · rw [if_neg hcond] at hok
      cases hraw : (download (date_window now days)
          (tickers.map Prod.snd)).cols with
      | multi c =>
        simp only [hraw] at hok
        cases hok
        rfl
      | flat c =>
        simp only [hraw] at hok
        cases hok

/-- Claim C1: for any arguments, a provider response with an empty date
index makes the fetch signal the EmptyResult error, and whenever the fetch
returns a table its date index is non-empty; moreover the returned index is
the provider's index, so it is monotonically increasing whenever the
provider delivers it sorted. A zero-row table is never returned without an
error, and every failure is an error value rather than a crash. -/
theorem get_data_empty_or_nonempty_sorted
    (download : Int × Int → List String → RawHist) (now : Int) (days : Nat)
    (tickers : List (String × String)) :
    ((download (date_window now days) (tickers.map Prod.snd)).dates = [] →
      get_data download now days tickers = Except.error ShapeError.emptyResult) ∧
    (∀ t m, get_data download now days tickers = Except.ok (t, m) →
      t.dates ≠ [] ∧
      (List.Chain' (fun a b => a < b)
          (download (date_window now days) (tickers.map Prod.snd)).dates →
        List.Chain' (fun a b => a < b) t.dates)) := by
  constructor
  · intro h
    simp only [get_data]
    rw [if_pos (by rw [h]; rfl)]
  · intro t m hok
    have hne : (download (date_window now days)
        (tickers.map Prod.snd)).dates ≠ [] := by
      intro h
      have hh := hok
      simp only [get_data] at hh
      rw [if_pos (by rw [h]; rfl)] at hh
      cases hh
    have hdates := get_data_ok_dates download now days tickers t m hok
    exact ⟨by rw [hdates]; exact hne, fun hchain => by rw [hdates]; exact hchain⟩

/-- Fixture cell function for the fetch witness. -/
def exCell1 : Field → String → Int → Option Int := fun _ _ d => some d

/-- Fixture provider response for the fetch witness. -/
def exRaw1 : RawHist :=
  { indexIsDatetime := true, dates := [1, 2, 3], cols := RawCols.multi exCell1 }

/-- Fixture mapping for the fetch witness. -/
def exTickers1 : List (String × String) := [("apple", "AAPL"), ("meta", "META")]

/-- Fixture table: the fetch result on the fixture response. -/
def exT1 : OHLCTable :=
  { dates := [1, 2, 3], symbols := ["AAPL", "META"], cell := exCell1 }

/-- Witness for the fetch theorem at a concrete sorted provider response. -/
theorem get_data_empty_or_nonempty_sorted_witness :
    exT1.dates ≠ [] ∧ List.Chain' (fun a b => a < b) exT1.dates := by
  have h := (get_data_empty_or_nonempty_sorted (fun _ _ => exRaw1) 100 3
    exTickers1).2 exT1 (mk_df_close exT1 exTickers1) rfl
  refine ⟨h.1, h.2 ?_⟩
  exact List.chain'_cons.mpr ⟨by norm_num,
    List.chain'_cons.mpr ⟨by norm_num, List.chain'_singleton _⟩⟩

theorem countKey_cons (k a : CacheKey) (l : List CacheKey) :
    countKey k (a :: l) = (if a = k then 1 else 0) + countKey k l := by
  simp only [countKey, List.filter_cons]
  by_cases h : a = k
  · simp [h, Nat.add_comm]
  · simp [h]

theorem fetchTrace_count (download : Int × Int → List String → RawHist)
    (now : Int) (k : CacheKey) :
    ∀ (ks : List CacheKey) (cache : List (CacheKey × FetchResult)),
      countKey k (fetchTrace download now cache ks) ≤ 1 ∧
      ((∃ e ∈ cache, e.1 = k) →
        countKey k (fetchTrace download now cache ks) = 0) := by
  intro ks
  induction ks with
  | nil =>
    intro cache
    exact ⟨by simp [fetchTrace, countKey], fun _ => by simp [fetchTrace, countKey]⟩
  | cons k0 ks ih =>
    intro cache
    cases hfind : cache.find? (fun e => decide (e.1 = (k0.1, k0.2))) with
    | some e =>
      have hstep : fetchTrace download now cache (k0 :: ks) =
          fetchTrace download now cache ks := by
        simp [fetchTrace, cachedFetch, hfind]
      rw [hstep]
      exact ih cache
    | none =>
      have hstep : fetchTrace download now cache (k0 :: ks) =
          k0 :: fetchTrace download now
            (((k0.1, k0.2), get_data download now k0.1 k0.2) :: cache) ks := by
        simp [fetchTrace, cachedFetch, hfind]
      rw [hstep, countKey_cons]
      by_cases hk : k0 = k
      · rw [if_pos hk]
        have hmem : ∃ e ∈ ((k0.1, k0.2),
            get_data download now k0.1 k0.2) :: cache, e.1 = k :=
          ⟨((k0.1, k0.2), get_data download now k0.1 k0.2),
            List.mem_cons_self _ _, by rw [Prod.mk.eta]; exact hk⟩
        have h0 := (ih _).2 hmem
        constructor
        · rw [h0]
        · intro hcache
          obtain ⟨e, he, hek⟩ := hcache
          have hne := List.find?_eq_none.mp hfind e he
          have hkey : e.1 = (k0.1, k0.2) := by
            rw [hek, ← hk]
          exact absurd hkey (by simpa using hne)
      · rw [if_neg hk, Nat.zero_add]
        constructor
        · exact (ih _).1
        · intro hcache
          obtain ⟨e, he, hek⟩ := hcache
          exact (ih _).2 ⟨e, List.mem_cons_of_mem _ he, hek⟩

/-- Claim C3: the fetch is memoized on the exact argument key: over any
sequence of fetch calls within one process lifetime (the cache starts
empty), at most one underlying provider request is issued per distinct
key, so repeated calls with unchanged arguments never fetch twice. -/
theorem fetch_memoized_at_most_one_request
    (download : Int × Int → List String → RawHist) (now : Int)
    (ks : List CacheKey) (k : CacheKey) :
    countKey k (fetchTrace download now [] ks) ≤ 1 :=
  (fetchTrace_count download now k ks []).1

/-- Claim C6: the line-chart shaping produces exactly one output row per
(date, selected instrument) pair — its length is the selection size times
the date count — every produced value equals the matrix entry at its
(instrument, date), and every (date, instrument, entry) triple of the
filtered matrix occurs in the output, so an absent price is preserved as a
missing value, never dropped and never replaced by zero. -/
theorem toLongForm_rows_exact {α : Type} [DecidableEq α]
    (m : CloseMatrix α) (companies : List α)
    (L : List (Int × α × Option Int))
    (hsub : ∀ c ∈ companies, ∃ r ∈ m.rows, r.1 = c)
    (hd : m.dates.Nodup)
    (hlen : ∀ r ∈ m.rows, r.2.length = m.dates.length)
    (hok : toLongForm m companies = Except.ok L) :
    L.length = companies.length * m.dates.length ∧
    (∀ x ∈ L, x.2.2 = m.entry x.2.1 x.1) ∧
    (∀ c ∈ companies, ∀ d ∈ m.dates, (d, c, m.entry c d) ∈ L) := by
  have hsel := selRows_eq_map_rowOf m companies hsub
  have hL : L = melt m.dates (companies.map (rowOf m)) := by
    by_cases hne : companies.isEmpty = true
    · unfold toLongForm at hok
      rw [if_pos hne] at hok
      cases hok
    · unfold toLongForm at hok
      rw [if_neg hne, hsel] at hok
      cases hok
      rfl
  have hrowlen : ∀ c ∈ companies, (rowOf m c).2.length = m.dates.length :=
    fun c hc => hlen _ (rowOf_spec m c (hsub c hc)).1
  subst hL
  refine ⟨?_, ?_, ?_⟩
  · rw [melt_length m.dates (companies.map (rowOf m)) ?_, List.length_map]
    intro r hr
    rcases List.mem_map.mp hr with ⟨c, hc, rfl⟩
    exact hrowlen c hc
  · intro x hx
    rcases mem_melt.mp hx with ⟨r, hr, i, hi, hv, rfl⟩
    rcases List.mem_map.mp hr with ⟨c, hc, rfl⟩
    have hlab := (rowOf_spec m c (hsub c hc)).2.1
    show (rowOf m c).2.get ⟨i, hv⟩ =
      m.entry (rowOf m c).1 (m.dates.get ⟨i, hi⟩)
    rw [hlab, entry_rowOf m c (hsub c hc) hd (hrowlen c hc) i hi]
  · intro c hc d hdm
    rcases List.mem_iff_get.mp hdm with ⟨⟨i, hi⟩, hget⟩
    have hv : i < (rowOf m c).2.length := by
      rw [hrowlen c hc]
      exact hi
    have hent : m.entry c d = (rowOf m c).2.get ⟨i, hv⟩ := by
      rw [← hget]
      exact entry_rowOf m c (hsub c hc) hd (hrowlen c hc) i hi
    apply mem_melt.mpr
    refine ⟨rowOf m c, List.mem_map_of_mem _ hc, i, hi, hv, ?_⟩
    rw [hent, ← hget, (rowOf_spec m c (hsub c hc)).2.1]

/-- Fixture matrix for the melt witness: two instruments over three dates,
with one missing price. -/
def exM6 : CloseMatrix String :=
  { dates := [1, 2, 3],
    rows := [("apple", [some 10, none, some 12]),
             ("meta", [some 20, some 21, some 22])] }

/-- Fixture long form: the melt of the fixture matrix. -/
def exL6 : List (Int × String × Option Int) :=
  [(1, "apple", some 10), (2, "apple", none), (3, "apple", some 12),
   (1, "meta", some 20), (2, "meta", some 21), (3, "meta", some 22)]

/-- Witness for the melt theorem: two selected instruments over three dates
yield exactly six rows. -/
theorem toLongForm_rows_exact_witness : exL6.length = 2 * 3 := by
  have hok : toLongForm exM6 ["apple", "meta"] = Except.ok exL6 := rfl
  exact (toLongForm_rows_exact exM6 ["apple", "meta"] exL6
    (by decide) (by decide) (by decide) hok).1

/-- Claim C9: the Close matrix is the Close projection of the OHLC table,
relabeled from ticker symbols to display names via the inverted mapping
and transposed: for every mapping entry whose symbol occurs in the table
and every date, the matrix entry at (display name, date) equals the Close
cell at (date, symbol); and when every table symbol is drawn from the
mapping, every row label is a display name of the mapping. -/
theorem mk_df_close_spec (hist : OHLCTable) (tickers : List (String × String))
    (hn : (tickers.map Prod.fst).Nodup)
    (hs : (tickers.map Prod.snd).Nodup) :
    (∀ n s, (n, s) ∈ tickers → s ∈ hist.symbols → ∀ d ∈ hist.dates,
      (mk_df_close hist tickers).entry (some n) d =
        hist.cell Field.Close s d) ∧
    ((∀ s2 ∈ hist.symbols, s2 ∈ tickers.map Prod.snd) →
      ∀ lab ∈ (mk_df_close hist tickers).rows.map Prod.fst,
        ∃ p ∈ tickers, lab = some p.1) := by
  have hfind_t2n : ∀ n s, (n, s) ∈ tickers →
      (ticker_to_name tickers).find? (fun p => decide (p.1 = s)) =
        some (s, n) := by
    intro n s hns
    apply find_unique
    · unfold ticker_to_name
      rw [List.mem_reverse]
      exact List.mem_map_of_mem _ hns
    · simp
    · intro b hb hpb
      unfold ticker_to_name at hb
      rw [List.mem_reverse] at hb
      rcases List.mem_map.mp hb with ⟨q, hq, rfl⟩
      have hqs : q.2 = s := by simpa using hpb
      have hqns : q = (n, s) :=
        List.inj_on_of_nodup_map hs hq hns (by simpa using hqs)
      rw [hqns]
  constructor
  · intro n s hns hssym d hd
    have hrowfind : (mk_df_close hist tickers).rows.find?
        (fun r => decide (r.1 = some n)) =
        some (some n, hist.dates.map (fun d2 => hist.cell Field.Close s d2)) := by
      apply find_unique
      · simp only [mk_df_close]
        apply List.mem_map.mpr
        refine ⟨s, hssym, ?_⟩
        rw [hfind_t2n n s hns]
        rfl
      · simp
      · intro b hb hpb
        simp only [mk_df_close, List.mem_map] at hb
        rcases hb with ⟨s2, hs2, rfl⟩
        have hb1 : ((ticker_to_name tickers).find?
            (fun p => decide (p.1 = s2))).map Prod.snd = some n := by
          simpa using hpb
        rcases Option.map_eq_some'.mp hb1 with ⟨q, hq, hqn⟩
        have hq1 : q.1 = s2 := by simpa using List.find?_some hq
        have hqmem := List.mem_of_find?_eq_some hq
        unfold ticker_to_name at hqmem
        rw [List.mem_reverse] at hqmem
        rcases List.mem_map.mp hqmem with ⟨p, hp, hpq⟩
        have hpn : p = (n, s2) := by
          have h2 : p.2 = s2 := by rw [← hq1, ← hpq]
          have h1 : p.1 = n := by rw [← hqn, ← hpq]
          cases p
          simp only [Prod.mk.injEq] at h1 h2 ⊢
          exact ⟨h1, h2⟩
        have heq : (n, s2) = (n, s) :=
          List.inj_on_of_nodup_map hn (hpn ▸ hp) hns rfl
        have hs2eq : s2 = s := congrArg Prod.snd heq
        subst hs2eq
        rw [hfind_t2n n s2 hns]
        rfl
    simp only [CloseMatrix.entry, hrowfind]
    have hzip : ((mk_df_close hist tickers).dates.zip
        (hist.dates.map (fun d2 => hist.cell Field.Close s d2))).find?
        (fun p => decide (p.1 = d)) =
        some (d, hist.cell Field.Close s d) := by
      have hdates : (mk_df_close hist tickers).dates = hist.dates := rfl
      rw [hdates, zip_self_map]
      apply find_unique
      · exact List.mem_map_of_mem _ hd
      · simp
      · intro y hy hpy
        rcases List.mem_map.mp hy with ⟨d2, _, rfl⟩
        have hd2 : d2 = d := by simpa using hpy
        rw [hd2]
    rw [hzip]
  · intro hsub lab hlab
    simp only [mk_df_close, List.map_map, List.mem_map, Function.comp] at hlab
    rcases hlab with ⟨s2, hs2, hrfl⟩
    rcases List.mem_map.mp (hsub s2 hs2) with ⟨p, hp, hps⟩
    refine ⟨p, hp, ?_⟩
    rw [← hrfl]
    have hfp := hfind_t2n p.1 p.2 (by rw [Prod.mk.eta]; exact hp)
    rw [hps] at hfp
    rw [hfp]
    rfl

theorem flatMap_congr_mem {α β : Type} (f g : α → List β) :
    ∀ l : List α, (∀ a ∈ l, f a = g a) → l.flatMap f = l.flatMap g := by
  intro l
  induction l with
  | nil => intro _; rfl
  | cons a t ih =>
    intro h
    rw [List.flatMap_cons, List.flatMap_cons, h a (List.mem_cons_self a t),
      ih (fun b hb => h b (List.mem_cons_of_mem a hb))]

theorem melt_map_fst {α : Type} (dates : List Int) :
    ∀ sel : List (α × List (Option Int)),
      (∀ r ∈ sel, r.2.length = dates.length) →
      (melt dates sel).map (fun x => x.1) = sel.flatMap (fun _ => dates) := by
  intro sel
  induction sel with
  | nil => intro _; simp [melt]
  | cons r rest ih =>
    intro h
    unfold melt at ih ⊢
    rw [List.flatMap_cons, List.flatMap_cons, List.map_append, List.map_map,
      ih (fun q hq => h q (List.mem_cons_of_mem _ hq))]
    congr 1
    have hc : (dates.zip r.2).map ((fun x : Int × α × Option Int => x.1) ∘
        (fun p : Int × Option Int => (p.1, r.1, p.2))) =
        (dates.zip r.2).map Prod.fst :=
      List.map_congr_left (fun p _ => rfl)
    rw [hc]
    exact List.map_fst_zip _ _ (le_of_eq (h r (List.mem_cons_self r rest)).symm)

theorem melt_map_name {α : Type} (dates : List Int) :
    ∀ sel : List (α × List (Option Int)),
      (∀ r ∈ sel, r.2.length = dates.length) →
      (melt dates sel).map (fun x => x.2.1) =
        sel.flatMap (fun r => List.replicate dates.length r.1) := by
  intro sel
  induction sel with
  | nil => intro _; simp [melt]
  | cons r rest ih =>
    intro h
    unfold melt at ih ⊢
    rw [List.flatMap_cons, List.flatMap_cons, List.map_append, List.map_map,
      ih (fun q hq => h q (List.mem_cons_of_mem _ hq))]
    congr 1
    have hc : (dates.zip r.2).map ((fun x : Int × α × Option Int => x.2.1) ∘
        (fun p : Int × Option Int => (p.1, r.1, p.2))) =
        (dates.zip r.2).map (fun _ => r.1) :=
      List.map_congr_left (fun p _ => rfl)
    rw [hc]
    have hrep : (dates.zip r.2).map (fun _ => r.1) =
        List.replicate (dates.zip r.2).length r.1 := by
      simp [List.map_const]
    rw [hrep, List.length_zip, h r (List.mem_cons_self r rest), min_self]

/-- Claim C5: melting a Close matrix over a non-empty selection of its
instruments and then re-pivoting the long-form output back into an
instruments-by-dates matrix reproduces the filtered submatrix exactly,
missing values included. -/
theorem toLongForm_rePivot_roundtrip {α : Type} [DecidableEq α]
    (m : CloseMatrix α) (companies : List α)
    (sel : List (α × List (Option Int))) (L : List (Int × α × Option Int))
    (hcn : companies.Nodup)
    (hsub : ∀ c ∈ companies, ∃ r ∈ m.rows, r.1 = c)
    (hd : m.dates.Nodup) (hdne : m.dates ≠ [])
    (hlen : ∀ r ∈ m.rows, r.2.length = m.dates.length)
    (hsel : selRows m companies = some sel)
    (hok : toLongForm m companies = Except.ok L) :
    rePivot L = { dates := m.dates, rows := sel } := by
  have hselmap := selRows_eq_map_rowOf m companies hsub
  have hseleq : sel = companies.map (rowOf m) := by
    rw [hselmap] at hsel
    cases hsel
    rfl
  have hcne : companies.isEmpty = false := by
    by_cases h : companies.isEmpty = true
    · unfold toLongForm at hok
      rw [if_pos h] at hok
      cases hok
    · simpa using h
  have hL : L = melt m.dates (companies.map (rowOf m)) := by
    unfold toLongForm at hok
    rw [if_neg (by simp [hcne]), hselmap] at hok
    cases hok
    rfl
  have hcompne : companies ≠ [] := by
    intro h
    rw [h] at hcne
    cases hcne
  have hrowlen : ∀ c ∈ companies, (rowOf m c).2.length = m.dates.length :=
    fun c hc => hlen _ (rowOf_spec m c (hsub c hc)).1
  have hsellen : ∀ r ∈ companies.map (rowOf m), r.2.length = m.dates.length := by
    intro r hr
    rcases List.mem_map.mp hr with ⟨c, hc, rfl⟩
    exact hrowlen c hc
  subst hseleq
  subst hL
  have hdlen0 : m.dates.length ≠ 0 :=
    fun h0 => hdne (List.length_eq_zero.mp h0)
  have hmapne : companies.map (rowOf m) ≠ [] :=
    fun h0 => hcompne (List.map_eq_nil_iff.mp h0)
  have hdd : firstDedup ((melt m.dates (companies.map (rowOf m))).map
      (fun x => x.1)) = m.dates := by
    rw [melt_map_fst m.dates _ hsellen]
    exact firstDedup_flatMap_const _ _ hmapne hd
  have hnn : firstDedup ((melt m.dates (companies.map (rowOf m))).map
      (fun x => x.2.1)) = companies := by
    rw [melt_map_name m.dates _ hsellen, List.flatMap_map]
    have hcg : companies.flatMap
        (fun c => List.replicate m.dates.length ((rowOf m c).1)) =
        companies.flatMap (fun c => List.replicate m.dates.length c) :=
      flatMap_congr_mem _ _ companies
        (fun c hc => by rw [(rowOf_spec m c (hsub c hc)).2.1])
    rw [hcg]
    exact firstDedup_flatMap_replicate m.dates.length hdlen0 companies hcn
  unfold rePivot
  rw [hdd, hnn]
  have hrows : companies.map (fun c => (c, m.dates.map
      (fun d => pivotVal (melt m.dates (companies.map (rowOf m))) c d))) =
      companies.map (rowOf m) := by
    apply List.map_congr_left
    intro c hc
    have hlab := (rowOf_spec m c (hsub c hc)).2.1
    have hvslen := hrowlen c hc
    have hsnd : m.dates.map
        (fun d => pivotVal (melt m.dates (companies.map (rowOf m))) c d) =
        (rowOf m c).2 := by
      apply List.ext_get (by simp [hvslen])
      intro i h1 h2
      have hi : i < m.dates.length := by simpa using h1
      have hv : i < (rowOf m c).2.length := h2
      have hfind : (melt m.dates (companies.map (rowOf m))).find?
          (fun x => decide (x.1 = m.dates.get ⟨i, hi⟩ ∧ x.2.1 = c)) =
          some (m.dates.get ⟨i, hi⟩, c, (rowOf m c).2.get ⟨i, hv⟩) := by
        apply find_unique
        · apply mem_melt.mpr
          refine ⟨rowOf m c, List.mem_map_of_mem _ hc, i, hi, hv, ?_⟩
          rw [hlab]
        · simp
        · intro y hy hpy
          rcases mem_melt.mp hy with ⟨r, hr, j, hj, hjv, rfl⟩
          rcases List.mem_map.mp hr with ⟨c2, hc2, rfl⟩
          obtain ⟨hp1, hp2⟩ := of_decide_eq_true hpy
          have hc2lab := (rowOf_spec m c2 (hsub c2 hc2)).2.1
          have hceq : c2 = c := by rw [← hc2lab]; exact hp2
          subst hceq
          have hfin : (⟨j, hj⟩ : Fin m.dates.length) = ⟨i, hi⟩ :=
            hd.get_inj_iff.mp hp1
          have hji : j = i := by
            cases hfin
            rfl
          subst hji
          rw [hlab]
      have hget : (m.dates.map (fun d =>
          pivotVal (melt m.dates (companies.map (rowOf m))) c d)).get ⟨i, h1⟩ =
          pivotVal (melt m.dates (companies.map (rowOf m))) c
            (m.dates.get ⟨i, hi⟩) := by
        simp [List.get_eq_getElem, List.getElem_map]
      rw [hget]
      unfold pivotVal
      rw [hfind]
    calc (c, m.dates.map
        (fun d => pivotVal (melt m.dates (companies.map (rowOf m))) c d)) =
        ((rowOf m c).1, (rowOf m c).2) := by rw [hsnd, hlab]
      _ = rowOf m c := Prod.mk.eta
  rw [hrows]

/-- Fixture matrix for the round-trip witness. -/
def exM5 : CloseMatrix String :=
  { dates := [1, 2],
    rows := [("apple", [some 10, none]),
             ("meta", [some 20, some 21]),
             ("google", [some 30, some 31])] }

/-- Fixture selection rows for the round-trip witness. -/
def exSel5 : List (String × List (Option Int)) :=
  [("meta", [some 20, some 21]), ("apple", [some 10, none])]

/-- Fixture long form for the round-trip witness. -/
def exL5 : List (Int × String × Option Int) :=
  [(1, "meta", some 20), (2, "meta", some 21),
   (1, "apple", some 10), (2, "apple", none)]

/-- Witness for the round-trip theorem at a concrete matrix and
selection. -/
theorem toLongForm_rePivot_roundtrip_witness :
    rePivot exL5 = { dates := exM5.dates, rows := exSel5 } := by
  have hsel : selRows exM5 ["meta", "apple"] = some exSel5 := rfl
  have hok : toLongForm exM5 ["meta", "apple"] = Except.ok exL5 := rfl
  exact toLongForm_rePivot_roundtrip exM5 ["meta", "apple"] exSel5 exL5
    (by decide) (by decide) (by decide) (by decide) (by decide) hsel hok

/-- Fixture table for the Close-matrix witness. -/
def exHist9 : OHLCTable :=
  { dates := [1, 2], symbols := ["AAPL", "META"],
    cell := fun _ s d => if s = "AAPL" then some d else some (10 * d) }

/-- Witness for the Close-matrix theorem: the entry at (apple, date 2)
equals the Close cell at (date 2, AAPL). -/
theorem mk_df_close_spec_witness :
    (mk_df_close exHist9 tickersMap).entry (some "apple") 2 =
      exHist9.cell Field.Close "AAPL" 2 :=
  (mk_df_close_spec exHist9 tickersMap (by decide) (by decide)).1
    "apple" "AAPL" (by decide) (by decide) 2 (by decide)

end Kabuka
